import Mathlib

/-!
Verification development for the commit-message analysis engine of the
`el331-commit-analysis` repository.

The repository ships a Next.js frontend (under `frontend/app`) and a FastAPI
backend.  The backend service code (`backend/app/services/nlp_service.py`,
`backend/app/routers/analysis.py`), which implements the four core
operations (n-gram extraction, KWIC search, corpus comparison, author
aggregation), is not part of the source snapshot; only its frontend callers
and type declarations are.  Those operations are therefore modelled here
from the specification's own words; each such definition carries a
doc comment starting with `Modelled from the spec:`.  The GitHub-URL parser
`parseGitHubUrl` of the frontend home page is real source code and is
embedded from it directly.
-/

namespace CommitAnalysis

/-! ### Data model (spec section 3) -/

/-- An annotated token: surface form, normalized form, part-of-speech tag,
optional named-entity tag.  Position is recovered from the list order. -/
structure AnnotatedToken where
  surface : String
  norm : String
  pos_tag : String
  entity_tag : Option String
  deriving DecidableEq

/-- A commit together with its ordered token sequence. -/
structure AnnotatedCommit where
  hash : String
  author : String
  email : String
  message : String
  tokens : List AnnotatedToken
  deriving DecidableEq

/-- ASCII lower-casing of one character (the fixed case policy). -/
def lowerChar (c : Char) : Char :=
  if 'A' ≤ c ∧ c ≤ 'Z' then Char.ofNat (c.toNat + 32) else c

/-- ASCII lower-casing of a string. -/
def asciiLower (s : String) : String := String.mk (s.data.map lowerChar)

/-- Join words with single spaces (deterministic n-gram text). -/
def joinWords : List String → String
  | [] => ""
  | [w] => w
  | w :: rest => w ++ " " ++ joinWords rest

/-! ### N-gram extractor (spec section 4.1) -/

/-- A row of a ranked n-gram frequency table (frontend `NgramData`). -/
structure NgramRecord where
  ngram : String
  frequency : Nat
  rank : Nat
  deriving DecidableEq

/-- Modelled from the spec: the joined, case-normalized text of one n-gram
window (`nlp_service.py` is absent from the snapshot).  The fixed
preprocessing policy is lower-casing; words are joined by single spaces. -/
def ngramText (w : List AnnotatedToken) : String :=
  joinWords (w.map (fun t => asciiLower t.surface))

/-- Modelled from the spec: all n-gram texts of one token sequence, obtained
by sliding a window of width `n` over the sequence. -/
def ngramsOfTokens (n : Nat) (toks : List AnnotatedToken) : List String :=
  (List.range (toks.length + 1 - n)).map (fun i => ngramText ((toks.drop i).take n))

/-- Modelled from the spec: all n-gram texts of a corpus; windows never cross
a commit boundary, so the per-commit lists are simply concatenated. -/
def allNgrams (corpus : List AnnotatedCommit) (n : Nat) : List String :=
  (corpus.map (fun c => ngramsOfTokens n c.tokens)).flatten

/-- The sort order of the n-gram table: descending frequency, ties broken by
ascending lexicographic order of the n-gram text. -/
def ngramOrder (a b : String × Nat) : Prop :=
  b.2 < a.2 ∨ (a.2 = b.2 ∧ a.1 ≤ b.1)

instance : DecidableRel ngramOrder := fun a b => by
  unfold ngramOrder; exact inferInstance

instance : IsTotal (String × Nat) ngramOrder := by
  constructor
  intro a b
  rcases Nat.lt_trichotomy a.2 b.2 with h | h | h
  · exact Or.inr (Or.inl h)
  · rcases le_total a.1 b.1 with h2 | h2
    · exact Or.inl (Or.inr ⟨h, h2⟩)
    · exact Or.inr (Or.inr ⟨h.symm, h2⟩)
  · exact Or.inl (Or.inl h)

instance : IsTrans (String × Nat) ngramOrder := by
  constructor
  intro a b c hab hbc
  rcases hab with h1 | ⟨h1, h1'⟩ <;> rcases hbc with h2 | ⟨h2, h2'⟩
  · exact Or.inl (h2.trans h1)
  · exact Or.inl (h2 ▸ h1)
  · exact Or.inl (h1 ▸ h2)
  · exact Or.inr ⟨h1.trans h2, h1'.trans h2'⟩

instance : IsAntisymm (String × Nat) ngramOrder := by
  constructor
  intro a b hab hba
  rcases hab with h1 | ⟨h1, h1'⟩ <;> rcases hba with h2 | ⟨h2, h2'⟩
  · exact absurd (h1.trans h2) (lt_irrefl _)
  · exact absurd h1 (h2 ▸ lt_irrefl _)
  · exact absurd h2 (h1 ▸ lt_irrefl _)
  · exact Prod.ext (le_antisymm h1' h2') h1

/-- Modelled from the spec: the frequency count, keyed by n-gram text. -/
def countedNgrams (corpus : List AnnotatedCommit) (n : Nat) : List (String × Nat) :=
  (allNgrams corpus n).dedup.map (fun t => (t, (allNgrams corpus n).count t))

/-- Assign 1-based ranks positionally, starting at `i`. -/
def rankedFrom (i : Nat) : List (String × Nat) → List NgramRecord
  | [] => []
  | p :: rest => ⟨p.1, p.2, i⟩ :: rankedFrom (i + 1) rest

/-- The counted entries meeting the minimum-frequency filter. -/
def filteredCounts (corpus : List AnnotatedCommit) (n minFreq : Nat) : List (String × Nat) :=
  (countedNgrams corpus n).filter (fun p => decide (minFreq ≤ p.2))

/-- The filtered entries in table order. -/
def sortedCounts (corpus : List AnnotatedCommit) (n minFreq : Nat) : List (String × Nat) :=
  List.insertionSort ngramOrder (filteredCounts corpus n minFreq)

/-- Modelled from the spec: `extract(corpus, n, min_frequency)` — count the
n-grams, drop entries below `min_frequency`, sort descending by frequency
with ties broken by ascending lexicographic text order, then assign ranks
`1..K`. -/
def extract (corpus : List AnnotatedCommit) (n minFreq : Nat) : List NgramRecord :=
  rankedFrom 1 (sortedCounts corpus n minFreq)

/-! ### KWIC search engine (spec section 4.2) -/

/-- The three query kinds of a KWIC search. -/
inductive SearchType
  | token
  | pos
  | entity
  deriving DecidableEq

/-- The four orderings of a KWIC result list. -/
inductive SortType
  | sequential
  | next_token_frequency
  | next_pos_frequency
  | next_token_pos_combination_frequency
  deriving DecidableEq

/-- One concordance line (frontend `KwicResult`). -/
structure KwicMatch where
  left : List AnnotatedToken
  keyword : AnnotatedToken
  right : List AnnotatedToken
  next_token : Option AnnotatedToken
  commit_hash : String
  sort_metric : Option (String × Nat)
  deriving DecidableEq

/-- Modelled from the spec: whether one token matches the query.  A token
query compares the surface or normalized form case-insensitively; pos and
entity queries compare the tags. -/
def tokenMatches (st : SearchType) (q : String) (t : AnnotatedToken) : Bool :=
  match st with
  | .token => asciiLower t.surface == asciiLower q || asciiLower t.norm == asciiLower q
  | .pos => t.pos_tag == q
  | .entity => t.entity_tag == some q

/-- Modelled from the spec: the match at token position `i` of commit `c`;
contexts are clipped to at most `w` tokens and to the commit boundary. -/
def kwicAt (w : Nat) (c : AnnotatedCommit) (i : Nat) (t : AnnotatedToken) : KwicMatch :=
  { left := (c.tokens.take i).drop (i - w)
    keyword := t
    right := (c.tokens.drop (i + 1)).take w
    next_token := (c.tokens.drop (i + 1)).head?
    commit_hash := c.hash
    sort_metric := none }

/-- Modelled from the spec: scan the token list of commit `c`, emitting one
match per matching position; `i` is the position of the head of `l`. -/
def kwicScan (st : SearchType) (q : String) (w : Nat) (c : AnnotatedCommit) :
    Nat → List AnnotatedToken → List KwicMatch
  | _, [] => []
  | i, t :: rest =>
    (if tokenMatches st q t then [kwicAt w c i t] else []) ++ kwicScan st q w c (i + 1) rest

/-- Modelled from the spec: all matches of the corpus in encounter order
(commit iteration order, then token index). -/
def searchSequential (corpus : List AnnotatedCommit) (st : SearchType) (q : String)
    (w : Nat) : List KwicMatch :=
  (corpus.map (fun c => kwicScan st q w c 0 c.tokens)).flatten

/-- The case-normalized surface form of the token following a match. -/
def nextSurface (m : KwicMatch) : Option String :=
  m.next_token.map (fun t => asciiLower t.surface)

/-- The pos tag of the token following a match. -/
def nextPosTag (m : KwicMatch) : Option String :=
  m.next_token.map (fun t => t.pos_tag)

/-- The (surface, pos) pair of the token following a match. -/
def nextCombo (m : KwicMatch) : Option (String × String) :=
  m.next_token.map (fun t => (asciiLower t.surface, t.pos_tag))

/-- Modelled from the spec: the frequency key of a match under one sort
type, computed across all matches; a match with no following token gets the
sentinel key 0. -/
def sortKey (all : List KwicMatch) (sortType : SortType) (m : KwicMatch) : Nat :=
  match sortType with
  | .sequential => 0
  | .next_token_frequency =>
    match nextSurface m with
    | none => 0
    | some s => all.countP (fun m2 => nextSurface m2 == some s)
  | .next_pos_frequency =>
    match nextPosTag m with
    | none => 0
    | some s => all.countP (fun m2 => nextPosTag m2 == some s)
  | .next_token_pos_combination_frequency =>
    match nextCombo m with
    | none => 0
    | some s => all.countP (fun m2 => nextCombo m2 == some s)

/-- The display label of each sort type. -/
def sortLabel : SortType → String
  | .sequential => "sequential"
  | .next_token_frequency => "next_token_frequency"
  | .next_pos_frequency => "next_pos_frequency"
  | .next_token_pos_combination_frequency => "next_token_pos_combination_frequency"

/-- Attach the sort metric (label and computed frequency) to a match. -/
def attachMetric (all : List KwicMatch) (sortType : SortType) (m : KwicMatch) : KwicMatch :=
  { m with sort_metric := some (sortLabel sortType, sortKey all sortType m) }

/-- Modelled from the spec: `search(corpus, query, window_size, sort_type)`.
The sequential mode returns encounter order with no metric; each
frequency-based mode attaches its metric and stable-sorts descending by the
computed frequency. -/
def search (corpus : List AnnotatedCommit) (st : SearchType) (q : String) (w : Nat) :
    SortType → List KwicMatch
  | .sequential => searchSequential corpus st q w
  | ft =>
    let seq := searchSequential corpus st q w
    (seq.map (attachMetric seq ft)).mergeSort
      (fun a b => decide (sortKey seq ft b ≤ sortKey seq ft a))

/-! ### Corpus comparator (spec section 4.3) -/

/-- One rank-bucket comparison (frontend `NgramComparisonStepResult`). -/
structure ComparisonStep where
  ngram_n : Nat
  rank_start : Nat
  rank_end : Nat
  common_ngrams : List String
  common_ngrams_count : Nat
  source_q_ngrams_in_step : List String
  source_k_ngrams_in_step : List String
  deriving DecidableEq

/-- Modelled from the spec: the texts of the table entries whose rank falls
in the bucket `[s, e]`. -/
def bucketNgrams (tbl : List NgramRecord) (s e : Nat) : List String :=
  (tbl.filter (fun r => decide (s ≤ r.rank ∧ r.rank ≤ e))).map (fun r => r.ngram)

/-- Modelled from the spec: the set intersection of the two buckets' texts,
as a duplicate-free list. -/
def stepCommon (tq tk : List NgramRecord) (s e : Nat) : List String :=
  (bucketNgrams tq s e).dedup.filter (fun t => decide (t ∈ bucketNgrams tk s e))

/-- Modelled from the spec: the `i`-th comparison step; the bucket is
`[i*step+1, min ((i+1)*step) maxRank]` and the common n-grams are the set
intersection of the two buckets' texts. -/
def mkStep (n : Nat) (tq tk : List NgramRecord) (step maxRank i : Nat) : ComparisonStep :=
  { ngram_n := n
    rank_start := i * step + 1
    rank_end := min ((i + 1) * step) maxRank
    common_ngrams := stepCommon tq tk (i * step + 1) (min ((i + 1) * step) maxRank)
    common_ngrams_count :=
      (stepCommon tq tk (i * step + 1) (min ((i + 1) * step) maxRank)).length
    source_q_ngrams_in_step := bucketNgrams tq (i * step + 1) (min ((i + 1) * step) maxRank)
    source_k_ngrams_in_step := bucketNgrams tk (i * step + 1) (min ((i + 1) * step) maxRank) }

/-- Modelled from the spec: `compare(table_Q, table_K, step_size, max_rank)`
for one `n` — one step per bucket of the partition of `[1, max_rank]`. -/
def compare (n : Nat) (tq tk : List NgramRecord) (step maxRank : Nat) : List ComparisonStep :=
  (List.range ((maxRank + step - 1) / step)).map (mkStep n tq tk step maxRank)

/-- Modelled from the spec: the comparison request service — per requested
`n`, build both tables with their own minimum frequencies and compare them;
when the identifiers resolve to empty corpora the per-n step lists are
empty but valid, never an error. -/
def compareRequest (corpusQ corpusK : List AnnotatedCommit) (nvals : List Nat)
    (step maxRank minFq minFk : Nat) : List (Nat × List ComparisonStep) :=
  nvals.map (fun n =>
    let tq := extract corpusQ n minFq
    let tk := extract corpusK n minFk
    (n, if tq.isEmpty && tk.isEmpty then [] else compare n tq tk step maxRank))

/-! ### Author aggregator (spec section 4.4) -/

/-- A per-author record (frontend `AuthorStat`).  The mean message length is
kept exact as a rational. -/
structure AuthorStat where
  author : String
  email : String
  commit_count : Nat
  avg_message_length : ℚ
  total_chars : Nat
  common_words : List String
  deriving DecidableEq

/-- The identity key of a commit: the exact (author, email) pair. -/
def authorKey (c : AnnotatedCommit) : String × String := (c.author, c.email)

/-- Modelled from the spec: the fixed stop-word set used for an author's
common content words. -/
def stopWords : List String :=
  ["the", "a", "an", "and", "or", "of", "to", "in", "is", "for", "on", "with"]

/-- Split a message into lower-cased words at spaces, dropping stop words. -/
def contentWords (msg : String) : List String :=
  ((asciiLower msg).split (fun c => c = ' ')).filter
    (fun w => !(w == "") && !(stopWords.contains w))

/-- Modelled from the spec: the top-10 most frequent content words of a
group of commits, ties broken alphabetically. -/
def commonWordsOf (g : List AnnotatedCommit) : List String :=
  let ws := (g.map (fun c => contentWords c.message)).flatten
  ((List.insertionSort ngramOrder
      (ws.dedup.map (fun t => (t, ws.count t)))).map (fun p => p.1)).take 10

/-- Modelled from the spec: the statistics of the author group keyed by `k`. -/
def mkAuthorStat (corpus : List AnnotatedCommit) (k : String × String) : AuthorStat :=
  let g := corpus.filter (fun c => authorKey c == k)
  { author := k.1
    email := k.2
    commit_count := g.length
    avg_message_length :=
      (((g.map (fun c => c.message.length)).sum : Nat) : ℚ) / ((g.length : Nat) : ℚ)
    total_chars := (g.map (fun c => c.message.length)).sum
    common_words := commonWordsOf g }

/-- The output order of the aggregator: descending commit count, ties broken
by ascending author name. -/
def authorOrder (a b : AuthorStat) : Prop :=
  b.commit_count < a.commit_count ∨ (a.commit_count = b.commit_count ∧ a.author ≤ b.author)

instance : DecidableRel authorOrder := fun a b => by
  unfold authorOrder; exact inferInstance

/-- Modelled from the spec: `aggregate(corpus)` — group the commits by the
exact (author, email) pair and compute one `AuthorStat` per group, ordered
by descending commit count with ties broken by author name. -/
def aggregate (corpus : List AnnotatedCommit) : List AuthorStat :=
  List.insertionSort authorOrder
    (((corpus.map authorKey).dedup).map (mkAuthorStat corpus))

/-! ### Request validation (spec section 7) -/

/-- The raw parameters of an analysis request as received from the caller;
integers are signed so that non-positive inputs are representable. -/
structure AnalysisParams where
  search_type : String
  sort_type : String
  n : Int
  step_size : Int
  max_rank : Int
  window_size : Int
  deriving DecidableEq

/-- The accepted search types. -/
def validSearchTypes : List String := ["token", "pos", "entity"]

/-- The accepted sort types. -/
def validSortTypes : List String :=
  ["sequential", "next_token_frequency", "next_pos_frequency",
   "next_token_pos_combination_frequency"]

/-- Whether a request is well formed. -/
def validParams (p : AnalysisParams) : Prop :=
  p.search_type ∈ validSearchTypes ∧ p.sort_type ∈ validSortTypes ∧
    p.n ∈ ([1, 2, 3] : List Int) ∧ 0 < p.step_size ∧ 0 < p.max_rank ∧ 0 < p.window_size

instance (p : AnalysisParams) : Decidable (validParams p) := by
  unfold validParams; exact inferInstance

/-- Modelled from the spec: input validation — a malformed query (unknown
search or sort type, `n` outside 1..3, non-positive sizes) is rejected with
a specific reason. -/
def validateParams (p : AnalysisParams) : Except String Unit :=
  if p.search_type ∈ validSearchTypes then
    if p.sort_type ∈ validSortTypes then
      if p.n ∈ ([1, 2, 3] : List Int) then
        if 0 < p.step_size then
          if 0 < p.max_rank then
            if 0 < p.window_size then Except.ok ()
            else Except.error "window_size must be positive"
          else Except.error "max_rank must be positive"
        else Except.error "step_size must be positive"
      else Except.error "n must be one of 1, 2, 3"
    else Except.error ("unknown sort_type: " ++ p.sort_type)
  else Except.error ("unknown search_type: " ++ p.search_type)

/-- Modelled from the spec: an analysis endpoint — validation runs first and
a validation failure is surfaced to the caller before any computation
touches the corpus. -/
def handleRequest (p : AnalysisParams) (corpus : List AnnotatedCommit) :
    Except String (List NgramRecord) :=
  match validateParams p with
  | Except.error e => Except.error e
  | Except.ok _ => Except.ok (extract corpus p.n.toNat 1)

/-! ### GitHub URL parsing (frontend home page, `src/unnamed/part_000`)

`parseGitHubUrl` tries two regular expressions in order: an unanchored
search for `github.com/<owner>/<repo>` and an anchored `^<owner>/<repo>$`,
both with `[^/]+` groups; on success a trailing `.git` is stripped from the
captured repo.  The embedding works on character lists and mirrors the
leftmost-match semantics of `String.prototype.match`. -/

/-- The literal prefix searched for by the first pattern. -/
def githubLit : List Char := "github.com/".toList

/-- Parse `<owner>/<repo>` at the start of `s` (the part of the first regex
after the literal): a nonempty slash-free owner, a slash, then a nonempty
slash-free repo prefix.  Returns the two captured groups. -/
def parseSeg (s : List Char) : Option (List Char × List Char) :=
  match s.takeWhile (fun c => c ≠ '/'), s.dropWhile (fun c => c ≠ '/') with
  | [], _ => none
  | _ :: _, [] => none
  | a :: tl, b :: rest2 =>
    if b = '/' then
      match rest2.takeWhile (fun c => c ≠ '/') with
      | [] => none
      | repo => some (a :: tl, repo)
    else none

/-- Scan `s` for the leftmost occurrence of `github.com/` at which the
owner/repo groups match, mirroring the unanchored first regex. -/
def findGithub : List Char → Option (List Char × List Char)
  | [] => none
  | c :: rest =>
    if githubLit.isPrefixOf (c :: rest) then
      match parseSeg ((c :: rest).drop githubLit.length) with
      | some p => some p
      | none => findGithub rest
    else findGithub rest

/-- The anchored second pattern `^([^/]+)/([^/]+)$`: the whole input is
`<owner>/<repo>` with both parts nonempty and slash-free. -/
def exactForm (s : List Char) : Option (List Char × List Char) :=
  match s.takeWhile (fun c => c ≠ '/'), s.dropWhile (fun c => c ≠ '/') with
  | [], _ => none
  | _ :: _, [] => none
  | a :: tl, b :: rest2 =>
    if b = '/' then
      if rest2 ≠ [] ∧ '/' ∉ rest2 then some (a :: tl, rest2) else none
    else none

/-- Strip one trailing `.git`, as `repo.replace(/\.git$/, '')` does. -/
def stripGit (r : List Char) : List Char :=
  if ".git".toList.isSuffixOf r then r.take (r.length - 4) else r

/-- The embedded `parseGitHubUrl` of the frontend home page: try the two
patterns in order and strip a trailing `.git` from the captured repo. -/
def parseGitHubUrl (s : List Char) : Option (List Char × List Char) :=
  match findGithub s with
  | some (o, r) => some (o, stripGit r)
  | none =>
    match exactForm s with
    | some (o, r) => some (o, stripGit r)
    | none => none

/-- The input contains a `github.com/<owner>/<repo>` segment with both parts
nonempty and slash-free. -/
def containsGithubSeg (s : List Char) : Prop :=
  ∃ pre o r post, s = pre ++ (githubLit ++ (o ++ '/' :: (r ++ post))) ∧
    o ≠ [] ∧ '/' ∉ o ∧ r ≠ [] ∧ '/' ∉ r

/-- The input consists entirely of `<owner>/<repo>` with both parts nonempty
and slash-free. -/
def exactOwnerRepoForm (s : List Char) : Prop :=
  ∃ o r, s = o ++ '/' :: r ∧ o ≠ [] ∧ '/' ∉ o ∧ r ≠ [] ∧ '/' ∉ r

/-! ### Concrete fixtures used by the witness theorems -/

/-- A plain word token. -/
def tok (w : String) : AnnotatedToken := ⟨w, w, "X", none⟩

/-- First demo commit. -/
def demoCommit1 : AnnotatedCommit :=
  ⟨"h1", "alice", "a@x", "fix bug in tree", [tok "fix", tok "bug", tok "in", tok "tree"]⟩

/-- Second demo commit. -/
def demoCommit2 : AnnotatedCommit :=
  ⟨"h2", "bob", "b@x", "fix another bug", [tok "fix", tok "another", tok "bug"]⟩

/-- The demo corpus of the spec's scenario section. -/
def demoCorpus : List AnnotatedCommit := [demoCommit1, demoCommit2]

/-! ### Properties of the n-gram extractor (claim C1) -/

/-- Ranks are positional: entry `i` carries rank `i + 1`. -/
def ranksSequential (tbl : List NgramRecord) : Prop :=
  ∀ (i : Nat) (h : i < tbl.length), tbl[i].rank = i + 1

/-- Frequency never increases as rank increases. -/
def freqAntitone (tbl : List NgramRecord) : Prop :=
  ∀ (i j : Nat) (hi : i < tbl.length) (hj : j < tbl.length), i ≤ j →
    tbl[j].frequency ≤ tbl[i].frequency

/-- Entries of equal frequency appear in strictly ascending lexicographic
order of their text. -/
def tiesLexAscending (tbl : List NgramRecord) : Prop :=
  ∀ (i j : Nat) (hi : i < tbl.length) (hj : j < tbl.length), i < j →
    tbl[i].frequency = tbl[j].frequency → tbl[i].ngram < tbl[j].ngram

theorem length_rankedFrom (i : Nat) (l : List (String × Nat)) :
    (rankedFrom i l).length = l.length := by
  induction l generalizing i with
  | nil => rfl
  | cons p rest ih => simp [rankedFrom, ih]

theorem getElem_rankedFrom (i : Nat) (l : List (String × Nat)) (j : Nat)
    (hj : j < l.length) (hj2 : j < (rankedFrom i l).length) :
    (rankedFrom i l)[j] = ⟨l[j].1, l[j].2, i + j⟩ := by
  induction l generalizing i j with
  | nil => simp at hj
  | cons p rest ih =>
    cases j with
    | zero => rfl
    | succ j' =>
      have hj' : j' < rest.length := by simpa using hj
      have hj2' : j' < (rankedFrom (i + 1) rest).length := by
        rw [length_rankedFrom]; exact hj'
      have := ih (i + 1) j' hj' hj2'
      simp only [rankedFrom, List.getElem_cons_succ, this]
      congr 1
      omega

theorem sorted_sortedCounts (corpus : List AnnotatedCommit) (n minFreq : Nat) :
    List.Sorted ngramOrder (sortedCounts corpus n minFreq) :=
  List.sorted_insertionSort ngramOrder _

theorem nodup_fst_sortedCounts (corpus : List AnnotatedCommit) (n minFreq : Nat) :
    ((sortedCounts corpus n minFreq).map Prod.fst).Nodup := by
  have h1 : (countedNgrams corpus n).map Prod.fst = (allNgrams corpus n).dedup := by
    simp [countedNgrams, List.map_map, Function.comp_def]
  have h2 : ((countedNgrams corpus n).map Prod.fst).Nodup := by
    rw [h1]; exact List.nodup_dedup _
  have h3 : ((filteredCounts corpus n minFreq).map Prod.fst).Nodup :=
    ((List.filter_sublist _).map Prod.fst).nodup h2
  exact ((List.perm_insertionSort ngramOrder _).map Prod.fst).nodup_iff.mpr h3

theorem length_extract (corpus : List AnnotatedCommit) (n minFreq : Nat) :
    (extract corpus n minFreq).length = (sortedCounts corpus n minFreq).length :=
  length_rankedFrom 1 _

theorem getElem_extract (corpus : List AnnotatedCommit) (n minFreq : Nat) (j : Nat)
    (hj2 : j < (sortedCounts corpus n minFreq).length)
    (hj : j < (extract corpus n minFreq).length) :
    (extract corpus n minFreq)[j] =
      ⟨(sortedCounts corpus n minFreq)[j].1, (sortedCounts corpus n minFreq)[j].2, 1 + j⟩ :=
  getElem_rankedFrom 1 _ j hj2 hj

/-- C1: for every corpus, every `n ≥ 1` and every `min_frequency ≥ 1`, the
table returned by `extract` has ranks forming the contiguous sequence
`1..K`, frequency is non-increasing as rank increases, entries of equal
frequency are in strictly ascending lexicographic order of their normalized
text, and the table is a pure function of the multiset of n-gram texts
(independent of insertion order). -/
theorem extract_ranked_table_invariants (corpus : List AnnotatedCommit) (n minFreq : Nat)
    (hn : 1 ≤ n) (hf : 1 ≤ minFreq) :
    ranksSequential (extract corpus n minFreq) ∧
    freqAntitone (extract corpus n minFreq) ∧
    tiesLexAscending (extract corpus n minFreq) ∧
    ∀ corpus2 : List AnnotatedCommit, (allNgrams corpus2 n).Perm (allNgrams corpus n) →
      extract corpus2 n minFreq = extract corpus n minFreq := by
  have hlen := length_extract corpus n minFreq
  have hsorted := sorted_sortedCounts corpus n minFreq
  have hnodup := nodup_fst_sortedCounts corpus n minFreq
  refine ⟨?_, ?_, ?_, ?_⟩
  · intro i h
    have h2 : i < (sortedCounts corpus n minFreq).length := by rwa [hlen] at h
    rw [getElem_extract corpus n minFreq i h2 h]
    exact Nat.add_comm 1 i
  · intro i j hi hj hij
    have hi2 : i < (sortedCounts corpus n minFreq).length := by rwa [hlen] at hi
    have hj2 : j < (sortedCounts corpus n minFreq).length := by rwa [hlen] at hj
    rw [getElem_extract corpus n minFreq i hi2 hi, getElem_extract corpus n minFreq j hj2 hj]
    rcases eq_or_lt_of_le hij with rfl | hlt
    · exact le_rfl
    · have hr := hsorted.rel_get_of_lt
        (a := ⟨i, hi2⟩) (b := ⟨j, hj2⟩) (by exact hlt)
      simp only [List.get_eq_getElem] at hr
      rcases hr with hcase | ⟨heq, _⟩
      · exact le_of_lt hcase
      · exact le_of_eq heq.symm
  · intro i j hi hj hlt heq
    have hi2 : i < (sortedCounts corpus n minFreq).length := by rwa [hlen] at hi
    have hj2 : j < (sortedCounts corpus n minFreq).length := by rwa [hlen] at hj
    rw [getElem_extract corpus n minFreq i hi2 hi, getElem_extract corpus n minFreq j hj2 hj]
    rw [getElem_extract corpus n minFreq i hi2 hi, getElem_extract corpus n minFreq j hj2 hj]
      at heq
    have hr := hsorted.rel_get_of_lt
      (a := ⟨i, hi2⟩) (b := ⟨j, hj2⟩) (by exact hlt)
    simp only [List.get_eq_getElem] at hr
    have heq' : (sortedCounts corpus n minFreq)[i].2 =
        (sortedCounts corpus n minFreq)[j].2 := heq
    rcases hr with hcase | ⟨_, hle⟩
    · exact absurd heq' (by omega)
    · show (sortedCounts corpus n minFreq)[i].1 < (sortedCounts corpus n minFreq)[j].1
      refine lt_of_le_of_ne hle ?_
      intro hcontra
      have hmi : i < ((sortedCounts corpus n minFreq).map Prod.fst).length := by
        simpa using hi2
      have hmj : j < ((sortedCounts corpus n minFreq).map Prod.fst).length := by
        simpa using hj2
      have hmap : ((sortedCounts corpus n minFreq).map Prod.fst)[i] =
          ((sortedCounts corpus n minFreq).map Prod.fst)[j] := by
        simp only [List.getElem_map]
        exact hcontra
      exact absurd (hnodup.getElem_inj_iff.mp hmap) (by omega)
  · intro corpus2 hp
    have hc : countedNgrams corpus2 n =
        ((allNgrams corpus2 n).dedup).map (fun t => (t, (allNgrams corpus n).count t)) := by
      unfold countedNgrams
      exact List.map_congr_left (fun a _ => by rw [hp.count_eq])
    have hperm : (countedNgrams corpus2 n).Perm (countedNgrams corpus n) := by
      rw [hc]
      exact (hp.dedup).map _
    have hpermf : (filteredCounts corpus2 n minFreq).Perm (filteredCounts corpus n minFreq) :=
      hperm.filter _
    have hS2 : (sortedCounts corpus2 n minFreq).Perm (sortedCounts corpus n minFreq) :=
      ((List.perm_insertionSort _ _).trans hpermf).trans (List.perm_insertionSort _ _).symm
    have heqS : sortedCounts corpus2 n minFreq = sortedCounts corpus n minFreq :=
      List.eq_of_perm_of_sorted hS2 (sorted_sortedCounts _ _ _) (sorted_sortedCounts _ _ _)
    unfold extract
    rw [heqS]

/-- Witness for C1 at the spec's two-commit scenario corpus. -/
theorem extract_ranked_table_invariants_witness :
    1 ≤ 1 ∧ 1 ≤ 2 ∧ ranksSequential (extract demoCorpus 1 2) ∧
      freqAntitone (extract demoCorpus 1 2) ∧ tiesLexAscending (extract demoCorpus 1 2) :=
  ⟨le_rfl, by decide,
    (extract_ranked_table_invariants demoCorpus 1 2 le_rfl (by decide)).1,
    (extract_ranked_table_invariants demoCorpus 1 2 le_rfl (by decide)).2.1,
    (extract_ranked_table_invariants demoCorpus 1 2 le_rfl (by decide)).2.2.1⟩

/-! ### Properties of the corpus comparator (claims C2, C3) -/

theorem length_compare (n : Nat) (tq tk : List NgramRecord) (step maxRank : Nat) :
    (compare n tq tk step maxRank).length = (maxRank + step - 1) / step := by
  simp [compare]

theorem getElem_compare (n : Nat) (tq tk : List NgramRecord) (step maxRank i : Nat)
    (h : i < (compare n tq tk step maxRank).length) :
    (compare n tq tk step maxRank)[i] = mkStep n tq tk step maxRank i := by
  unfold compare at h ⊢
  simp

theorem mkStep_rank_start (n : Nat) (tq tk : List NgramRecord) (step maxRank i : Nat) :
    (mkStep n tq tk step maxRank i).rank_start = i * step + 1 := rfl

theorem mkStep_rank_end (n : Nat) (tq tk : List NgramRecord) (step maxRank i : Nat) :
    (mkStep n tq tk step maxRank i).rank_end = min ((i + 1) * step) maxRank := rfl

/-- C3: for every `step_size ≥ 1` and `max_rank ≥ 1`, `compare` partitions
the rank axis `[1, max_rank]` into contiguous, non-overlapping buckets of
width `step_size`, the last bucket clipped at `max_rank`, and emits exactly
one step per bucket regardless of the table contents. -/
theorem compare_partitions_rank_axis (n : Nat) (tq tk : List NgramRecord) (step maxRank : Nat)
    (hs : 1 ≤ step) (hm : 1 ≤ maxRank) :
    (compare n tq tk step maxRank).length = (maxRank + step - 1) / step ∧
    1 ≤ (compare n tq tk step maxRank).length ∧
    (∀ (i : Nat) (h : i < (compare n tq tk step maxRank).length),
      (compare n tq tk step maxRank)[i].rank_start = i * step + 1 ∧
      (compare n tq tk step maxRank)[i].rank_end = min ((i + 1) * step) maxRank ∧
      (compare n tq tk step maxRank)[i].rank_start ≤ (compare n tq tk step maxRank)[i].rank_end ∧
      (compare n tq tk step maxRank)[i].rank_end ≤ maxRank ∧
      (i + 1 = (compare n tq tk step maxRank).length →
        (compare n tq tk step maxRank)[i].rank_end = maxRank)) ∧
    (∀ (i : Nat) (h1 : i + 1 < (compare n tq tk step maxRank).length)
      (h0 : i < (compare n tq tk step maxRank).length),
      (compare n tq tk step maxRank)[i + 1].rank_start =
        (compare n tq tk step maxRank)[i].rank_end + 1) ∧
    ∀ tq2 tk2 : List NgramRecord,
      (compare n tq2 tk2 step maxRank).length = (compare n tq tk step maxRank).length := by
  have hstep : 0 < step := hs
  have hQR := Nat.div_add_mod (maxRank + step - 1) step
  have hR : (maxRank + step - 1) % step < step := Nat.mod_lt _ hstep
  have hsub : ((maxRank + step - 1) / step - 1) * step =
      ((maxRank + step - 1) / step) * step - 1 * step := Nat.sub_mul _ 1 step
  have hcomm : ((maxRank + step - 1) / step) * step = step * ((maxRank + step - 1) / step) :=
    Nat.mul_comm _ _
  have hQ1 : 1 ≤ (maxRank + step - 1) / step := by
    rw [Nat.one_le_div_iff hstep]; omega
  refine ⟨length_compare n tq tk step maxRank, ?_, ?_, ?_, ?_⟩
  · rw [length_compare]; exact hQ1
  · intro i h
    have hiQ : i < (maxRank + step - 1) / step := by rwa [length_compare] at h
    have hle : i ≤ (maxRank + step - 1) / step - 1 := by omega
    have hmul : i * step ≤ ((maxRank + step - 1) / step - 1) * step :=
      Nat.mul_le_mul_right step hle
    have hsucc : (i + 1) * step = i * step + step := Nat.succ_mul i step
    rw [getElem_compare n tq tk step maxRank i h, mkStep_rank_start, mkStep_rank_end]
    refine ⟨rfl, rfl, ?_, ?_, ?_⟩
    · omega
    · omega
    · intro hlast
      have hiQ2 : i + 1 = (maxRank + step - 1) / step := by
        rwa [length_compare] at hlast
      have : (i + 1) * step = ((maxRank + step - 1) / step) * step := by rw [hiQ2]
      omega
  · intro i h1 h0
    have hiQ : i + 1 < (maxRank + step - 1) / step := by rwa [length_compare] at h1
    have hle : i + 1 ≤ (maxRank + step - 1) / step - 1 := by omega
    have hmul : (i + 1) * step ≤ ((maxRank + step - 1) / step - 1) * step :=
      Nat.mul_le_mul_right step hle
    rw [getElem_compare n tq tk step maxRank (i + 1) h1,
      getElem_compare n tq tk step maxRank i h0, mkStep_rank_start, mkStep_rank_end]
    omega
  · intro tq2 tk2
    rw [length_compare, length_compare]

/-- Witness for C3 at the spec's scenario: step 3, max rank 3 gives one
bucket `[1, 3]`. -/
theorem compare_partitions_rank_axis_witness :
    1 ≤ 3 ∧ 1 ≤ 3 ∧ (compare 1 [] [] 3 3).length = (3 + 3 - 1) / 3 ∧
      1 ≤ (compare 1 [] [] 3 3).length :=
  ⟨by decide, by decide, (compare_partitions_rank_axis 1 [] [] 3 3 (by decide) (by decide)).1,
    (compare_partitions_rank_axis 1 [] [] 3 3 (by decide) (by decide)).2.1⟩

theorem toFinset_dedup_list (l : List String) : l.dedup.toFinset = l.toFinset := by
  ext x
  simp [List.mem_toFinset, List.mem_dedup]

theorem stepCommon_spec (tq tk : List NgramRecord) (s e : Nat) :
    (stepCommon tq tk s e).Nodup ∧
    (stepCommon tq tk s e).toFinset =
      (bucketNgrams tq s e).toFinset ∩ (bucketNgrams tk s e).toFinset ∧
    (stepCommon tq tk s e).length =
      ((bucketNgrams tq s e).toFinset ∩ (bucketNgrams tk s e).toFinset).card := by
  have hnodup : (stepCommon tq tk s e).Nodup :=
    (List.nodup_dedup (bucketNgrams tq s e)).filter _
  have hset : (stepCommon tq tk s e).toFinset =
      (bucketNgrams tq s e).toFinset ∩ (bucketNgrams tk s e).toFinset := by
    ext x
    simp [stepCommon, List.mem_toFinset, List.mem_filter, List.mem_dedup,
      Finset.mem_inter, decide_eq_true_eq]
  refine ⟨hnodup, hset, ?_⟩
  rw [← hset]
  exact (List.toFinset_card_of_nodup hnodup).symm

/-- C2: every `ComparisonStep` produced by `compare` has `common_ngrams`
equal, as a set, to the exact intersection of the Q-bucket and K-bucket
texts, and `common_ngrams_count` equals its cardinality and is at most
the minimum of the two bucket set sizes. -/
theorem compare_step_common_invariants (n : Nat) (tq tk : List NgramRecord)
    (step maxRank : Nat) :
    ∀ st ∈ compare n tq tk step maxRank,
      st.common_ngrams.Nodup ∧
      st.common_ngrams.toFinset =
        st.source_q_ngrams_in_step.toFinset ∩ st.source_k_ngrams_in_step.toFinset ∧
      st.common_ngrams_count = st.common_ngrams.length ∧
      st.common_ngrams_count =
        (st.source_q_ngrams_in_step.toFinset ∩ st.source_k_ngrams_in_step.toFinset).card ∧
      st.common_ngrams_count ≤
        min st.source_q_ngrams_in_step.toFinset.card st.source_k_ngrams_in_step.toFinset.card := by
  intro st hst
  unfold compare at hst
  obtain ⟨i, _, rfl⟩ := List.mem_map.mp hst
  obtain ⟨hnodup, hset, hcard⟩ :=
    stepCommon_spec tq tk (i * step + 1) (min ((i + 1) * step) maxRank)
  refine ⟨hnodup, hset, rfl, hcard, ?_⟩
  show (stepCommon tq tk (i * step + 1) (min ((i + 1) * step) maxRank)).length ≤ _
  rw [hcard]
  exact le_min
    (Finset.card_le_card Finset.inter_subset_left)
    (Finset.card_le_card Finset.inter_subset_right)

/-- The Q table of the spec's comparator scenario: ranks 1..3 carry a, b, c. -/
def demoTableQ : List NgramRecord := [⟨"a", 5, 1⟩, ⟨"b", 4, 2⟩, ⟨"c", 3, 3⟩]

/-- The K table of the spec's comparator scenario: ranks 1..3 carry b, c, d. -/
def demoTableK : List NgramRecord := [⟨"b", 6, 1⟩, ⟨"c", 5, 2⟩, ⟨"d", 2, 3⟩]

/-- Witness for C2 at the spec's comparator scenario (one bucket `[1,3]`,
common n-grams b and c). -/
theorem compare_step_common_invariants_witness :
    (mkStep 1 demoTableQ demoTableK 3 3 0 ∈ compare 1 demoTableQ demoTableK 3 3) ∧
      (mkStep 1 demoTableQ demoTableK 3 3 0).common_ngrams.Nodup ∧
      (mkStep 1 demoTableQ demoTableK 3 3 0).common_ngrams.toFinset =
        (mkStep 1 demoTableQ demoTableK 3 3 0).source_q_ngrams_in_step.toFinset ∩
          (mkStep 1 demoTableQ demoTableK 3 3 0).source_k_ngrams_in_step.toFinset :=
  ⟨by decide,
    (compare_step_common_invariants 1 demoTableQ demoTableK 3 3 _ (by decide)).1,
    (compare_step_common_invariants 1 demoTableQ demoTableK 3 3 _ (by decide)).2.1⟩

/-! ### Properties of the KWIC search engine (claims C4, C5, C6) -/

theorem length_kwicScan (st : SearchType) (q : String) (w : Nat) (c : AnnotatedCommit)
    (i : Nat) (l : List AnnotatedToken) :
    (kwicScan st q w c i l).length = l.countP (tokenMatches st q) := by
  induction l generalizing i with
  | nil => rfl
  | cons t rest ih =>
    by_cases h : tokenMatches st q t <;>
      simp [kwicScan, h, ih, List.countP_cons]

theorem mem_kwicScan (st : SearchType) (q : String) (w : Nat) (c : AnnotatedCommit)
    (i : Nat) (l : List AnnotatedToken) (m : KwicMatch) (hm : m ∈ kwicScan st q w c i l) :
    ∃ j t, t ∈ l ∧ m = kwicAt w c j t := by
  induction l generalizing i with
  | nil => simp [kwicScan] at hm
  | cons t rest ih =>
    unfold kwicScan at hm
    rcases List.mem_append.mp hm with hm1 | hm2
    · by_cases h : tokenMatches st q t
      · simp [h] at hm1
        exact ⟨i, t, List.mem_cons_self t rest, hm1⟩
      · simp [h] at hm1
    · obtain ⟨j, t2, ht2, hmt⟩ := ih (i + 1) hm2
      exact ⟨j, t2, List.mem_cons_of_mem t ht2, hmt⟩

theorem kwicAt_left_length (w : Nat) (c : AnnotatedCommit) (i : Nat) (t : AnnotatedToken) :
    (kwicAt w c i t).left.length ≤ w := by
  simp only [kwicAt, List.length_drop, List.length_take]
  omega

theorem kwicAt_right_length (w : Nat) (c : AnnotatedCommit) (i : Nat) (t : AnnotatedToken) :
    (kwicAt w c i t).right.length ≤ w := by
  simp only [kwicAt, List.length_take, List.length_drop]
  omega

/-- A match respects the window bound and never borrows context from a
different commit. -/
def matchWithinBounds (corpus : List AnnotatedCommit) (w : Nat) (m : KwicMatch) : Prop :=
  m.left.length ≤ w ∧ m.right.length ≤ w ∧
  ∃ c ∈ corpus, m.commit_hash = c.hash ∧ m.keyword ∈ c.tokens ∧
    (∀ t ∈ m.left, t ∈ c.tokens) ∧ (∀ t ∈ m.right, t ∈ c.tokens)

theorem searchSequential_mem (corpus : List AnnotatedCommit) (st : SearchType) (q : String)
    (w : Nat) (m : KwicMatch) (hm : m ∈ searchSequential corpus st q w) :
    m.sort_metric = none ∧ matchWithinBounds corpus w m := by
  unfold searchSequential at hm
  rw [List.mem_flatten] at hm
  obtain ⟨l, hl, hml⟩ := hm
  obtain ⟨c, hc, rfl⟩ := List.mem_map.mp hl
  obtain ⟨j, t, ht, rfl⟩ := mem_kwicScan st q w c 0 c.tokens m hml
  refine ⟨rfl, kwicAt_left_length w c j t, kwicAt_right_length w c j t, c, hc, rfl, ?_, ?_, ?_⟩
  · exact ht
  · intro t2 ht2
    exact List.mem_of_mem_take (List.mem_of_mem_drop ht2)
  · intro t2 ht2
    exact List.mem_of_mem_drop (List.mem_of_mem_take ht2)

theorem length_searchSequential (corpus : List AnnotatedCommit) (st : SearchType)
    (q : String) (w : Nat) :
    (searchSequential corpus st q w).length =
      (corpus.map (fun c => c.tokens.countP (tokenMatches st q))).sum := by
  unfold searchSequential
  rw [List.length_flatten]
  simp [List.map_map, Function.comp_def, length_kwicScan]

theorem search_eq_sequential (corpus : List AnnotatedCommit) (st : SearchType) (q : String)
    (w : Nat) : search corpus st q w SortType.sequential = searchSequential corpus st q w := rfl

theorem search_eq_mergeSort (corpus : List AnnotatedCommit) (st : SearchType) (q : String)
    (w : Nat) (ft : SortType) (hft : ft ≠ SortType.sequential) :
    search corpus st q w ft =
      ((searchSequential corpus st q w).map
          (attachMetric (searchSequential corpus st q w) ft)).mergeSort
        (fun a b => decide (sortKey (searchSequential corpus st q w) ft b ≤
          sortKey (searchSequential corpus st q w) ft a)) := by
  cases ft with
  | sequential => exact absurd rfl hft
  | next_token_frequency => rfl
  | next_pos_frequency => rfl
  | next_token_pos_combination_frequency => rfl

theorem attachMetric_fields (all : List KwicMatch) (ft : SortType) (m : KwicMatch) :
    (attachMetric all ft m).left = m.left ∧ (attachMetric all ft m).right = m.right ∧
      (attachMetric all ft m).keyword = m.keyword ∧
      (attachMetric all ft m).next_token = m.next_token ∧
      (attachMetric all ft m).commit_hash = m.commit_hash :=
  ⟨rfl, rfl, rfl, rfl, rfl⟩

/-- C4: for every KWIC query with `window_size ≥ 0`, every matching token
position of every commit yields exactly one match (the result length is the
total count of matching positions), and every returned match has at most
`window_size` tokens of context on each side, all drawn from the matched
commit. -/
theorem kwic_window_and_boundaries (corpus : List AnnotatedCommit) (st : SearchType)
    (q : String) (w : Nat) (sortType : SortType) (hw : 0 ≤ w) :
    (search corpus st q w sortType).length =
      (corpus.map (fun c => c.tokens.countP (tokenMatches st q))).sum ∧
    ∀ m ∈ search corpus st q w sortType, matchWithinBounds corpus w m := by
  by_cases hft : sortType = SortType.sequential
  · subst hft
    rw [search_eq_sequential]
    refine ⟨length_searchSequential corpus st q w, ?_⟩
    intro m hm
    exact (searchSequential_mem corpus st q w m hm).2
  · rw [search_eq_mergeSort corpus st q w sortType hft]
    constructor
    · rw [(List.mergeSort_perm _ _).length_eq, List.length_map]
      exact length_searchSequential corpus st q w
    · intro m hm
      rw [(List.mergeSort_perm _ _).mem_iff] at hm
      obtain ⟨m0, hm0, rfl⟩ := List.mem_map.mp hm
      obtain ⟨_, h1, h2, c, hc, h3, h4, h5, h6⟩ :=
        searchSequential_mem corpus st q w m0 hm0
      exact ⟨h1, h2, c, hc, h3, h4, h5, h6⟩

/-- Witness for C4 at the demo corpus. -/
theorem kwic_window_and_boundaries_witness :
    0 ≤ 1 ∧
      (search demoCorpus SearchType.token "bug" 1 SortType.sequential).length =
        (demoCorpus.map (fun c => c.tokens.countP (tokenMatches SearchType.token "bug"))).sum :=
  ⟨by decide,
    (kwic_window_and_boundaries demoCorpus SearchType.token "bug" 1 SortType.sequential
      (by decide)).1⟩

/-- C5: under `next_token_frequency`, the result is ordered descending by
the frequency (computed across all matches) of the token following the
match; a match with no following token has the sentinel key 0; and the sort
is stable — the sublist of matches with any fixed key value keeps its
sequential relative order. -/
theorem kwic_next_token_frequency_sort (corpus : List AnnotatedCommit) (st : SearchType)
    (q : String) (w : Nat) :
    (search corpus st q w SortType.next_token_frequency).Pairwise
      (fun a b => sortKey (searchSequential corpus st q w) SortType.next_token_frequency b ≤
        sortKey (searchSequential corpus st q w) SortType.next_token_frequency a) ∧
    (∀ m : KwicMatch, m.next_token = none →
      sortKey (searchSequential corpus st q w) SortType.next_token_frequency m = 0) ∧
    ∀ v : Nat,
      (search corpus st q w SortType.next_token_frequency).filter
        (fun m => decide (sortKey (searchSequential corpus st q w)
          SortType.next_token_frequency m = v)) =
      ((searchSequential corpus st q w).map
          (attachMetric (searchSequential corpus st q w) SortType.next_token_frequency)).filter
        (fun m => decide (sortKey (searchSequential corpus st q w)
          SortType.next_token_frequency m = v)) := by
  have hsearch := search_eq_mergeSort corpus st q w SortType.next_token_frequency (by decide)
  set seq := searchSequential corpus st q w with hseq
  set key := sortKey seq SortType.next_token_frequency with hkey
  set le := fun a b : KwicMatch => decide (key b ≤ key a) with hle
  set attached := seq.map (attachMetric seq SortType.next_token_frequency) with hattached
  have htrans : ∀ a b c : KwicMatch, le a b = true → le b c = true → le a c = true := by
    intro a b c hab hbc
    simp only [hle, decide_eq_true_eq] at hab hbc ⊢
    exact hbc.trans hab
  have htotal : ∀ a b : KwicMatch, (le a b || le b a) = true := by
    intro a b
    simp only [hle, Bool.or_eq_true, decide_eq_true_eq]
    exact Nat.le_total (key b) (key a)
  refine ⟨?_, ?_, ?_⟩
  · rw [hsearch]
    have hp := List.sorted_mergeSort htrans htotal attached
    refine hp.imp ?_
    intro a b hab
    simpa only [hle, decide_eq_true_eq] using hab
  · intro m hm
    simp [hkey, sortKey, nextSurface, hm]
  · intro v
    rw [hsearch]
    have hfsub : List.Sublist (attached.filter (fun m => decide (key m = v))) attached :=
      List.filter_sublist attached
    have hpw : (attached.filter (fun m => decide (key m = v))).Pairwise
        (fun a b => le a b = true) := by
      refine List.pairwise_of_forall_mem_list ?_
      intro a ha b hb
      have hka : key a = v := of_decide_eq_true (List.mem_filter.mp ha).2
      have hkb : key b = v := of_decide_eq_true (List.mem_filter.mp hb).2
      simp only [hle, decide_eq_true_eq, hka, hkb]
      exact le_rfl
    have hsub : List.Sublist (attached.filter (fun m => decide (key m = v)))
        (attached.mergeSort le) :=
      List.sublist_mergeSort htrans htotal hpw hfsub
    have hself : (attached.filter (fun m => decide (key m = v))).filter
        (fun m => decide (key m = v)) = attached.filter (fun m => decide (key m = v)) :=
      List.filter_eq_self.mpr (fun a ha => (List.mem_filter.mp ha).2)
    have hsub2 : List.Sublist (attached.filter (fun m => decide (key m = v)))
        ((attached.mergeSort le).filter (fun m => decide (key m = v))) := by
      have := hsub.filter (fun m => decide (key m = v))
      rwa [hself] at this
    have hperm : ((attached.mergeSort le).filter (fun m => decide (key m = v))).Perm
        (attached.filter (fun m => decide (key m = v))) :=
      (List.mergeSort_perm attached le).filter _
    exact (hsub2.eq_of_length hperm.length_eq.symm).symm

/-- A match with no following token, used by the C5 witness. -/
def demoEndMatch : KwicMatch := ⟨[], tok "bug", [], none, "h1", none⟩

/-- Witness for C5: the sentinel key of a match at the end of a message is 0. -/
theorem kwic_next_token_frequency_sort_witness :
    demoEndMatch.next_token = none ∧
      sortKey (searchSequential demoCorpus SearchType.token "bug" 1)
        SortType.next_token_frequency demoEndMatch = 0 :=
  ⟨rfl, (kwic_next_token_frequency_sort demoCorpus SearchType.token "bug" 1).2.1
    demoEndMatch rfl⟩

/-- C6: a returned match carries a sort metric (metric label and computed
frequency) exactly when a frequency-based sort type was requested; under
`sequential` no metric is attached. -/
theorem kwic_sort_metric_iff (corpus : List AnnotatedCommit) (st : SearchType) (q : String)
    (w : Nat) :
    (∀ m ∈ search corpus st q w SortType.sequential, m.sort_metric = none) ∧
    ∀ ft : SortType, ft ≠ SortType.sequential →
      ∀ m ∈ search corpus st q w ft,
        ∃ m0 ∈ searchSequential corpus st q w,
          m = attachMetric (searchSequential corpus st q w) ft m0 ∧
          m.sort_metric = some (sortLabel ft,
            sortKey (searchSequential corpus st q w) ft m0) := by
  constructor
  · intro m hm
    rw [search_eq_sequential] at hm
    exact (searchSequential_mem corpus st q w m hm).1
  · intro ft hft m hm
    rw [search_eq_mergeSort corpus st q w ft hft, (List.mergeSort_perm _ _).mem_iff] at hm
    obtain ⟨m0, hm0, rfl⟩ := List.mem_map.mp hm
    exact ⟨m0, hm0, rfl, rfl⟩

/-- A one-commit corpus for the C6 witness. -/
def demoC6Corpus : List AnnotatedCommit :=
  [⟨"h3", "carol", "c@x", "fix bug", [tok "fix", tok "bug"]⟩]

/-- The single attached match of the C6 witness query. -/
def demoAttached : KwicMatch :=
  ⟨[], tok "fix", [tok "bug"], some (tok "bug"), "h3", some ("next_token_frequency", 1)⟩

/-- Witness for C6: a frequency-sorted search attaches the metric. -/
theorem kwic_sort_metric_iff_witness :
    ∃ m0 ∈ searchSequential demoC6Corpus SearchType.token "fix" 1,
      demoAttached = attachMetric (searchSequential demoC6Corpus SearchType.token "fix" 1)
          SortType.next_token_frequency m0 ∧
      demoAttached.sort_metric = some (sortLabel SortType.next_token_frequency,
        sortKey (searchSequential demoC6Corpus SearchType.token "fix" 1)
          SortType.next_token_frequency m0) :=
  (kwic_sort_metric_iff demoC6Corpus SearchType.token "fix" 1).2
    SortType.next_token_frequency (by decide) demoAttached
    (by
      rw [search_eq_mergeSort demoC6Corpus SearchType.token "fix" 1
        SortType.next_token_frequency (by decide), (List.mergeSort_perm _ _).mem_iff]
      decide)

/-! ### Properties of the author aggregator (claim C7) -/

theorem length_filter_authorKey (corpus : List AnnotatedCommit) (k : String × String) :
    (corpus.filter (fun c => authorKey c == k)).length =
      (corpus.map authorKey).countP (fun y => decide (y = k)) := by
  rw [List.countP_map, ← List.countP_eq_length_filter]
  refine List.countP_congr ?_
  intro c _
  simp [Function.comp, beq_iff_eq, decide_eq_true_eq]

/-- C7: the commit counts of the aggregated author records sum to the corpus
size, and for every record the mean message length times the commit count
equals the total character count (exactly, over the rationals). -/
theorem aggregate_totals (corpus : List AnnotatedCommit) :
    ((aggregate corpus).map (fun s => s.commit_count)).sum = corpus.length ∧
    ∀ s ∈ aggregate corpus,
      (s.commit_count : ℚ) * s.avg_message_length = (s.total_chars : ℚ) := by
  constructor
  · have hperm : ((aggregate corpus).map (fun s => s.commit_count)).Perm
        ((((corpus.map authorKey).dedup).map (mkAuthorStat corpus)).map
          (fun s => s.commit_count)) :=
      (List.perm_insertionSort authorOrder _).map _
    rw [hperm.sum_eq, List.map_map]
    have hmap : (((corpus.map authorKey).dedup).map
          ((fun s => s.commit_count) ∘ mkAuthorStat corpus)) =
        (((corpus.map authorKey).dedup).map
          (fun k => (corpus.map authorKey).countP (fun y => decide (y = k)))) := by
      refine List.map_congr_left ?_
      intro k _
      exact length_filter_authorKey corpus k
    have hlem : (((corpus.map authorKey).dedup).map
          (fun k => (corpus.map authorKey).countP (fun y => decide (y = k)))).sum =
        (corpus.map authorKey).length :=
      List.sum_map_count_dedup_eq_length (corpus.map authorKey)
    rw [hmap, hlem, List.length_map]
  · intro s hs
    unfold aggregate at hs
    rw [(List.perm_insertionSort authorOrder _).mem_iff] at hs
    obtain ⟨k, hk, rfl⟩ := List.mem_map.mp hs
    obtain ⟨c, hc, hck⟩ := List.mem_map.mp (List.mem_dedup.mp hk)
    have hcg : c ∈ corpus.filter (fun c2 => authorKey c2 == k) :=
      List.mem_filter.mpr ⟨hc, by rw [hck]; exact beq_self_eq_true k⟩
    have hpos : 0 < (corpus.filter (fun c2 => authorKey c2 == k)).length :=
      List.length_pos.mpr (List.ne_nil_of_mem hcg)
    have hb : (((corpus.filter (fun c2 => authorKey c2 == k)).length : Nat) : ℚ) ≠ 0 :=
      Nat.cast_ne_zero.mpr (by omega)
    simp only [mkAuthorStat]
    exact mul_div_cancel₀ _ hb

/-- Witness for C7 at a one-author corpus. -/
theorem aggregate_totals_witness :
    ((aggregate [demoCommit1]).map (fun s => s.commit_count)).sum = [demoCommit1].length ∧
      ((mkAuthorStat [demoCommit1] ("alice", "a@x")).commit_count : ℚ) *
        (mkAuthorStat [demoCommit1] ("alice", "a@x")).avg_message_length =
        ((mkAuthorStat [demoCommit1] ("alice", "a@x")).total_chars : ℚ) :=
  ⟨(aggregate_totals [demoCommit1]).1,
    (aggregate_totals [demoCommit1]).2 _
      (by
        rw [show aggregate [demoCommit1] =
          [mkAuthorStat [demoCommit1] ("alice", "a@x")] from rfl]
        exact List.mem_cons_self _ _)⟩

/-! ### Empty results are valid results (claim C8) -/

theorem extract_nil (n minFreq : Nat) : extract [] n minFreq = [] := rfl

/-- C8: when no n-gram meets the threshold `extract` returns the empty
sequence (its result type carries no error case), and a comparison request
over empty corpora yields an empty-but-valid step list for every requested
`n`, not an error. -/
theorem empty_results_are_valid (corpus : List AnnotatedCommit) (n minFreq : Nat)
    (nvals : List Nat) (step maxRank mq mk : Nat)
    (h : ∀ t ∈ allNgrams corpus n, (allNgrams corpus n).count t < minFreq) :
    extract corpus n minFreq = [] ∧
    compareRequest [] [] nvals step maxRank mq mk = nvals.map (fun m => (m, [])) := by
  constructor
  · have hfil : filteredCounts corpus n minFreq = [] := by
      rw [filteredCounts, List.filter_eq_nil_iff]
      intro p hp
      unfold countedNgrams at hp
      obtain ⟨t, ht, rfl⟩ := List.mem_map.mp hp
      have hcount := h t (List.mem_dedup.mp ht)
      simp only [decide_eq_true_eq]
      omega
    unfold extract sortedCounts
    rw [hfil]
    rfl
  · unfold compareRequest
    refine List.map_congr_left ?_
    intro m _
    rw [extract_nil, extract_nil]
    rfl

/-- The one-commit corpus (all unigram counts are 1) for the C8 witness. -/
def demoSingle : List AnnotatedCommit := [demoCommit1]

/-- Witness for C8: threshold 2 filters everything out of a corpus of
singleton counts, and an empty-corpora comparison request returns empty
per-n lists. -/
theorem empty_results_are_valid_witness :
    (∀ t ∈ allNgrams demoSingle 1, (allNgrams demoSingle 1).count t < 2) ∧
      extract demoSingle 1 2 = [] ∧
      compareRequest [] [] [1, 2, 3] 20 200 2 2 = [(1, []), (2, []), (3, [])] := by
  refine ⟨by decide, (empty_results_are_valid demoSingle 1 2 [1, 2, 3] 20 200 2 2
    (by decide)).1, ?_⟩
  rw [(empty_results_are_valid demoSingle 1 2 [1, 2, 3] 20 200 2 2 (by decide)).2]
  rfl

/-! ### Input validation (claim C9) -/

/-- C9: validation is equivalent to the well-formedness predicate, a
malformed request is rejected with a specific reason before any computation
(the outcome does not depend on the corpus), and an unknown search type is
reported as such. -/
theorem validation_rejects_malformed (p : AnalysisParams) :
    ((validateParams p).isOk ↔ validParams p) ∧
    (¬ validParams p → ∃ msg, validateParams p = Except.error msg ∧
      ∀ corpus : List AnnotatedCommit, handleRequest p corpus = Except.error msg) ∧
    (p.search_type ∉ validSearchTypes →
      validateParams p = Except.error ("unknown search_type: " ++ p.search_type)) := by
  have herr : ∀ msg, validateParams p = Except.error msg →
      ∀ corpus : List AnnotatedCommit, handleRequest p corpus = Except.error msg := by
    intro msg hv corpus
    simp [handleRequest, hv]
  by_cases h1 : p.search_type ∈ validSearchTypes
  · by_cases h2 : p.sort_type ∈ validSortTypes
    · by_cases h3 : p.n ∈ ([1, 2, 3] : List Int)
      · by_cases h4 : 0 < p.step_size
        · by_cases h5 : 0 < p.max_rank
          · by_cases h6 : 0 < p.window_size
            · have hv : validateParams p = Except.ok () := by
                simp [validateParams, h1, h2, h3, h4, h5, h6]
              refine ⟨?_, ?_, fun hc => absurd h1 hc⟩
              · simp [hv, validParams, h1, h2, h3, h4, h5, h6, Except.isOk, Except.toBool]
              · intro hcontra
                exact absurd ⟨h1, h2, h3, h4, h5, h6⟩ hcontra
            · have hv : validateParams p = Except.error "window_size must be positive" := by
                simp [validateParams, h1, h2, h3, h4, h5, h6]
              exact ⟨by simp [hv, validParams, h6, Except.isOk, Except.toBool],
                fun _ => ⟨_, hv, herr _ hv⟩, fun hc => absurd h1 hc⟩
          · have hv : validateParams p = Except.error "max_rank must be positive" := by
              simp [validateParams, h1, h2, h3, h4, h5]
            exact ⟨by simp [hv, validParams, h5, Except.isOk, Except.toBool],
              fun _ => ⟨_, hv, herr _ hv⟩, fun hc => absurd h1 hc⟩
        · have hv : validateParams p = Except.error "step_size must be positive" := by
            simp [validateParams, h1, h2, h3, h4]
          exact ⟨by simp [hv, validParams, h4, Except.isOk, Except.toBool],
            fun _ => ⟨_, hv, herr _ hv⟩, fun hc => absurd h1 hc⟩
      · have hv : validateParams p = Except.error "n must be one of 1, 2, 3" := by
          simp [validateParams, h1, h2, h3]
        exact ⟨by simp [hv, validParams, h3, Except.isOk, Except.toBool],
          fun _ => ⟨_, hv, herr _ hv⟩, fun hc => absurd h1 hc⟩
    · have hv : validateParams p = Except.error ("unknown sort_type: " ++ p.sort_type) := by
        simp [validateParams, h1, h2]
      exact ⟨by simp [hv, validParams, h2, Except.isOk, Except.toBool],
        fun _ => ⟨_, hv, herr _ hv⟩, fun hc => absurd h1 hc⟩
  · have hv : validateParams p = Except.error ("unknown search_type: " ++ p.search_type) := by
      simp [validateParams, h1]
    exact ⟨by simp [hv, validParams, h1, Except.isOk, Except.toBool],
      fun _ => ⟨_, hv, herr _ hv⟩, fun _ => hv⟩

/-- Witness for C9: a request with an unknown search type is rejected with
the specific reason, before and independent of any corpus computation. -/
theorem validation_rejects_malformed_witness :
    ("foo" ∉ validSearchTypes) ∧
      validateParams ⟨"foo", "sequential", 1, 20, 200, 5⟩ =
        Except.error ("unknown search_type: " ++ "foo") ∧
      handleRequest ⟨"foo", "sequential", 1, 20, 200, 5⟩ demoCorpus =
        Except.error ("unknown search_type: " ++ "foo") ∧
      handleRequest ⟨"foo", "sequential", 1, 20, 200, 5⟩ [] =
        Except.error ("unknown search_type: " ++ "foo") := by
  have hv := (validation_rejects_malformed ⟨"foo", "sequential", 1, 20, 200, 5⟩).2.2
    (by decide)
  exact ⟨by decide, hv, by simp [handleRequest, hv], by simp [handleRequest, hv]⟩

/-! ### Properties of the GitHub URL parser (claim C10) -/

theorem takeWhile_middle {α : Type} (p : α → Bool) (l : List α) (x : α) (t : List α)
    (hl : ∀ a ∈ l, p a = true) (hx : p x = false) :
    (l ++ x :: t).takeWhile p = l ∧ (l ++ x :: t).dropWhile p = x :: t := by
  induction l with
  | nil => simp [List.takeWhile_cons, List.dropWhile_cons, hx]
  | cons a l ih =>
    have ha : p a = true := hl a (List.mem_cons_self a l)
    have hl2 : ∀ b ∈ l, p b = true := fun b hb => hl b (List.mem_cons_of_mem a hb)
    obtain ⟨h1, h2⟩ := ih hl2
    simp [List.takeWhile_cons, List.dropWhile_cons, ha, h1, h2]

theorem isPrefixOf_exists_append (l s : List Char) (h : l.isPrefixOf s = true) :
    ∃ t, s = l ++ t := by
  induction l generalizing s with
  | nil => exact ⟨s, rfl⟩
  | cons a l ih =>
    cases s with
    | nil => simp [List.isPrefixOf] at h
    | cons b s =>
      simp only [List.isPrefixOf, Bool.and_eq_true, beq_iff_eq] at h
      obtain ⟨t, ht⟩ := ih s h.2
      exact ⟨t, by rw [h.1, ht]; rfl⟩

theorem isPrefixOf_append_self (l t : List Char) : l.isPrefixOf (l ++ t) = true := by
  induction l with
  | nil => simp [List.isPrefixOf]
  | cons a l ih => simp [List.isPrefixOf, ih]

theorem notMem_takeWhile_ne (s : List Char) (x : Char) :
    x ∉ s.takeWhile (fun c => c ≠ x) := by
  intro hmem
  have := List.mem_takeWhile_imp hmem
  simp at this

theorem parseSeg_some (s o r : List Char) (h : parseSeg s = some (o, r)) :
    ∃ post, s = o ++ '/' :: (r ++ post) ∧ o ≠ [] ∧ '/' ∉ o ∧ r ≠ [] ∧ '/' ∉ r := by
  have hsplit := List.takeWhile_append_dropWhile (p := fun c => decide (c ≠ '/')) (l := s)
  unfold parseSeg at h
  rcases htw : s.takeWhile (fun c => c ≠ '/') with _ | ⟨a, tl⟩ <;> rw [htw] at h
  · simp at h
  · rcases hdw : s.dropWhile (fun c => c ≠ '/') with _ | ⟨b, dl⟩ <;> rw [hdw] at h
    · simp at h
    · dsimp only at h
      by_cases hb : b = '/'
      · rw [if_pos hb] at h
        subst hb
        rcases hrep : dl.takeWhile (fun c => c ≠ '/') with _ | ⟨c0, cl⟩ <;> rw [hrep] at h
        · simp at h
        · simp only [Option.some.injEq, Prod.mk.injEq] at h
          obtain ⟨ho, hr⟩ := h
          have hdl : dl = r ++ dl.dropWhile (fun c => c ≠ '/') := by
            rw [← hr, ← hrep]
            exact (List.takeWhile_append_dropWhile _ _).symm
          refine ⟨dl.dropWhile (fun c => c ≠ '/'), ?_, ?_, ?_, ?_, ?_⟩
          · rw [← hsplit, htw, hdw, ho, ← hdl]
          · rw [← ho]; simp
          · rw [← ho, ← htw]; exact notMem_takeWhile_ne s '/'
          · rw [← hr]; simp
          · rw [← hr, ← hrep]; exact notMem_takeWhile_ne dl '/'
      · rw [if_neg hb] at h
        simp at h

theorem parseSeg_isSome_of (o r post : List Char) (ho : o ≠ []) (ho2 : '/' ∉ o)
    (hr : r ≠ []) (hr2 : '/' ∉ r) :
    (parseSeg (o ++ '/' :: (r ++ post))).isSome = true := by
  have hpo : ∀ a ∈ o, (fun c => decide (c ≠ '/')) a = true := by
    intro a ha
    simp only [decide_eq_true_eq]
    intro hc
    exact ho2 (hc ▸ ha)
  obtain ⟨htw, hdw⟩ :=
    takeWhile_middle (fun c => decide (c ≠ '/')) o '/' (r ++ post) hpo (by simp)
  unfold parseSeg
  rw [htw, hdw]
  cases o with
  | nil => exact absurd rfl ho
  | cons a tl =>
    dsimp only
    rw [if_pos rfl]
    cases r with
    | nil => exact absurd rfl hr
    | cons c0 rl =>
      have hc0 : (decide (c0 ≠ '/')) = true := by
        simp only [decide_eq_true_eq]
        intro hc
        exact hr2 (hc ▸ List.mem_cons_self c0 rl)
      simp only [List.cons_append, List.takeWhile_cons, hc0, if_true]
      rfl

theorem findGithub_cons (c : Char) (rest : List Char) :
    findGithub (c :: rest) =
      if githubLit.isPrefixOf (c :: rest) = true then
        match parseSeg ((c :: rest).drop githubLit.length) with
        | some p => some p
        | none => findGithub rest
      else findGithub rest := rfl

theorem findGithub_some (s : List Char) (o r : List Char) (h : findGithub s = some (o, r)) :
    ∃ pre post, s = pre ++ (githubLit ++ (o ++ '/' :: (r ++ post))) ∧
      o ≠ [] ∧ '/' ∉ o ∧ r ≠ [] ∧ '/' ∉ r := by
  induction s with
  | nil => simp [findGithub] at h
  | cons c rest ih =>
    rw [findGithub_cons] at h
    by_cases hpre : githubLit.isPrefixOf (c :: rest) = true
    · rw [if_pos hpre] at h
      rcases hps : parseSeg ((c :: rest).drop githubLit.length) with _ | p <;> rw [hps] at h
      · obtain ⟨pre, post, hd, hprops⟩ := ih h
        exact ⟨c :: pre, post, by rw [List.cons_append, ← hd], hprops⟩
      · simp only [Option.some.injEq] at h
        subst h
        obtain ⟨t, ht⟩ := isPrefixOf_exists_append _ _ hpre
        rw [ht, List.drop_left] at hps
        obtain ⟨post, hdec, props⟩ := parseSeg_some t o r hps
        refine ⟨[], post, ?_, props⟩
        rw [List.nil_append, ht, hdec]
    · rw [if_neg hpre] at h
      obtain ⟨pre, post, hd, hprops⟩ := ih h
      exact ⟨c :: pre, post, by rw [List.cons_append, ← hd], hprops⟩

theorem findGithub_isSome_of_seg (pre o r post : List Char) (ho : o ≠ []) (ho2 : '/' ∉ o)
    (hr : r ≠ []) (hr2 : '/' ∉ r) :
    (findGithub (pre ++ (githubLit ++ (o ++ '/' :: (r ++ post))))).isSome = true := by
  induction pre with
  | nil =>
    rw [List.nil_append]
    have hlit : githubLit ++ (o ++ '/' :: (r ++ post)) =
        'g' :: ("ithub.com/".toList ++ (o ++ '/' :: (r ++ post))) := rfl
    rw [hlit, findGithub_cons, ← hlit]
    rw [if_pos (isPrefixOf_append_self _ _), List.drop_left]
    rcases hps : parseSeg (o ++ '/' :: (r ++ post)) with _ | p
    · have := parseSeg_isSome_of o r post ho ho2 hr hr2
      rw [hps] at this
      simp at this
    · rfl
  | cons c pre2 ih =>
    rw [List.cons_append, findGithub_cons]
    by_cases hpre :
        githubLit.isPrefixOf (c :: (pre2 ++ (githubLit ++ (o ++ '/' :: (r ++ post))))) = true
    · rw [if_pos hpre]
      rcases hps :
          parseSeg ((c :: (pre2 ++ (githubLit ++ (o ++ '/' :: (r ++ post))))).drop
            githubLit.length) with _ | p
      · exact ih
      · rfl
    · rw [if_neg hpre]
      exact ih

theorem exactForm_some (s o r : List Char) (h : exactForm s = some (o, r)) :
    s = o ++ '/' :: r ∧ o ≠ [] ∧ '/' ∉ o ∧ r ≠ [] ∧ '/' ∉ r := by
  have hsplit := List.takeWhile_append_dropWhile (p := fun c => decide (c ≠ '/')) (l := s)
  unfold exactForm at h
  rcases htw : s.takeWhile (fun c => c ≠ '/') with _ | ⟨a, tl⟩ <;> rw [htw] at h
  · simp at h
  · rcases hdw : s.dropWhile (fun c => c ≠ '/') with _ | ⟨b, dl⟩ <;> rw [hdw] at h
    · simp at h
    · dsimp only at h
      by_cases hb : b = '/'
      · rw [if_pos hb] at h
        subst hb
        by_cases hcond : dl ≠ [] ∧ '/' ∉ dl
        · rw [if_pos hcond] at h
          simp only [Option.some.injEq, Prod.mk.injEq] at h
          obtain ⟨ho, hr⟩ := h
          refine ⟨?_, ?_, ?_, ?_, ?_⟩
          · rw [← hsplit, htw, hdw, ho, hr]
          · rw [← ho]; simp
          · rw [← ho, ← htw]; exact notMem_takeWhile_ne s '/'
          · rw [← hr]; exact hcond.1
          · rw [← hr]; exact hcond.2
        · rw [if_neg hcond] at h
          simp at h
      · rw [if_neg hb] at h
        simp at h

theorem exactForm_isSome_of (o r : List Char) (ho : o ≠ []) (ho2 : '/' ∉ o) (hr : r ≠ [])
    (hr2 : '/' ∉ r) : (exactForm (o ++ '/' :: r)).isSome = true := by
  have hpo : ∀ a ∈ o, (fun c => decide (c ≠ '/')) a = true := by
    intro a ha
    simp only [decide_eq_true_eq]
    intro hc
    exact ho2 (hc ▸ ha)
  obtain ⟨htw, hdw⟩ := takeWhile_middle (fun c => decide (c ≠ '/')) o '/' r hpo (by simp)
  unfold exactForm
  rw [htw, hdw]
  cases o with
  | nil => exact absurd rfl ho
  | cons a tl =>
    dsimp only
    rw [if_pos rfl, if_pos ⟨hr, hr2⟩]
    rfl

/-- C10: `parseGitHubUrl` returns a non-null (owner, repo) exactly when the
input contains a `github.com/<owner>/<repo>` segment or consists entirely
of `<owner>/<repo>` with both parts nonempty and slash-free; when non-null,
the returned repo is the captured repo group with one trailing `.git`
stripped; every other input yields null. -/
theorem parseGitHubUrl_spec (s : List Char) :
    ((parseGitHubUrl s).isSome = true ↔ containsGithubSeg s ∨ exactOwnerRepoForm s) ∧
    ∀ o r, parseGitHubUrl s = some (o, r) →
      ∃ raw, r = stripGit raw ∧
        ((∃ pre post, s = pre ++ (githubLit ++ (o ++ '/' :: (raw ++ post))) ∧
            o ≠ [] ∧ '/' ∉ o ∧ raw ≠ [] ∧ '/' ∉ raw) ∨
          (s = o ++ '/' :: raw ∧ o ≠ [] ∧ '/' ∉ o ∧ raw ≠ [] ∧ '/' ∉ raw)) := by
  constructor
  · constructor
    · intro hsome
      unfold parseGitHubUrl at hsome
      cases hfg : findGithub s with
      | some p =>
        obtain ⟨pre, post, hd, h1, h2, h3, h4⟩ := findGithub_some s p.1 p.2 (by rw [hfg])
        exact Or.inl ⟨pre, p.1, p.2, post, hd, h1, h2, h3, h4⟩
      | none =>
        rw [hfg] at hsome
        cases hef : exactForm s with
        | some p =>
          obtain ⟨hd, h1, h2, h3, h4⟩ := exactForm_some s p.1 p.2 (by rw [hef])
          exact Or.inr ⟨p.1, p.2, hd, h1, h2, h3, h4⟩
        | none =>
          rw [hef] at hsome
          simp at hsome
    · intro hcond
      unfold parseGitHubUrl
      cases hfg : findGithub s with
      | some p =>
        rcases p with ⟨o2, r2⟩
        rfl
      | none =>
        rcases hcond with ⟨pre, o, r, post, hd, h1, h2, h3, h4⟩ | ⟨o, r, hd, h1, h2, h3, h4⟩
        · exfalso
          have hsome := findGithub_isSome_of_seg pre o r post h1 h2 h3 h4
          rw [← hd] at hsome
          rw [hfg] at hsome
          simp at hsome
        · have hsome := exactForm_isSome_of o r h1 h2 h3 h4
          rw [← hd] at hsome
          cases hef : exactForm s with
          | none =>
            rw [hef] at hsome
            simp at hsome
          | some p =>
            rcases p with ⟨o2, r2⟩
            rfl
  · intro o r h
    unfold parseGitHubUrl at h
    cases hfg : findGithub s with
    | some p =>
      rw [hfg] at h
      rcases p with ⟨o2, r2⟩
      simp only [Option.some.injEq, Prod.mk.injEq] at h
      obtain ⟨ho2, hr2⟩ := h
      obtain ⟨pre, post, hd, h1, h2, h3, h4⟩ := findGithub_some s o2 r2 hfg
      subst ho2
      exact ⟨r2, hr2.symm, Or.inl ⟨pre, post, hd, h1, h2, h3, h4⟩⟩
    | none =>
      rw [hfg] at h
      cases hef : exactForm s with
      | none =>
        rw [hef] at h
        simp at h
      | some p =>
        rw [hef] at h
        rcases p with ⟨o2, r2⟩
        simp only [Option.some.injEq, Prod.mk.injEq] at h
        obtain ⟨ho2, hr2⟩ := h
        obtain ⟨hd, h1, h2, h3, h4⟩ := exactForm_some s o2 r2 hef
        subst ho2
        exact ⟨r2, hr2.symm, Or.inr ⟨hd, h1, h2, h3, h4⟩⟩

/-- Witness for C10: a GitHub URL with a `.git` suffix parses (and the
parse strips the suffix), while a bare username yields null. -/
theorem parseGitHubUrl_spec_witness :
    (parseGitHubUrl ("github.com/foo/bar.git".toList)).isSome = true ∧
      (containsGithubSeg ("github.com/foo/bar.git".toList) ∨
        exactOwnerRepoForm ("github.com/foo/bar.git".toList)) ∧
      parseGitHubUrl ("github.com/foo/bar.git".toList) =
        some ("foo".toList, "bar".toList) ∧
      (parseGitHubUrl ("torvalds".toList)).isSome = false :=
  ⟨by decide, (parseGitHubUrl_spec ("github.com/foo/bar.git".toList)).1.mp (by decide),
    by decide, by decide⟩

end CommitAnalysis
